import Mathlib

set_option maxRecDepth 100000

/-
  Verification of the eta-scanner kernel (src/eta_scanner/eta_congruent_gpu.cu).

  The CUDA source is shallowly embedded over Nat: 64-bit unsigned arithmetic
  is Nat with explicit `% 2^64` wherever the C computation can wrap, and the
  floating-point seed of `isqrt_uint64` is modelled by the exact value of the
  IEEE-754 binary64 numbers involved (round to 53 significant bits, round to
  nearest, ties to even).
-/

namespace EtaScanner

/-- 2^64, the modulus of `uint64_t` arithmetic. -/
def U64 : Nat := 18446744073709551616

/-- ULLONG_MAX, the "not found" sentinel written into the register at init. -/
def UMAX : Nat := 18446744073709551615

/-- The hard safety ceiling on eta enforced by the kernel
(`if (eta > 1518500249ULL) return;`). -/
def CEILING : Nat := 1518500249

/-- BLOCK_SIZE from `search_eta_chunked`. -/
def BLOCK_SIZE : Nat := 256

/-- MAX_GRID_DIM from `search_eta_chunked`. -/
def MAX_GRID_DIM : Nat := 65535

/-- CHUNK_SIZE = BLOCK_SIZE * MAX_GRID_DIM = 16776960. -/
def CHUNK_SIZE : Nat := BLOCK_SIZE * MAX_GRID_DIM

/-- Fuel-driven floor of log2 (number of binary digits minus one).
Exact for every argument below 2^128; every value fed to it here is below
2^66. Structural recursion on the fuel keeps it kernel-reducible. -/
def bitsAux : Nat → Nat → Nat
  | 0, _ => 0
  | fuel + 1, n => if n < 2 then 0 else bitsAux fuel (n / 2) + 1

/-- Floor of the base-2 logarithm, used to locate the leading bit when
rounding to 53 significant bits. -/
def floorLog2 (m : Nat) : Nat := bitsAux 128 m

/-- Round a natural number to 53 significant bits, round to nearest, ties to
even: the value of the IEEE-754 binary64 double nearest to `m`. Also correct
on half-unit grids: rounding the real w/2 to binary64 yields (fp53 w)/2, since
the representable multiples of 1/2 at any magnitude at least 1/2 are exactly
the 53-significant-bit multiples of the corresponding power of two. -/
def fp53 (m : Nat) : Nat :=
  if m < 9007199254740992 then m
  else
    let e := floorLog2 m - 52
    let q := m / 2 ^ e
    let r := m % 2 ^ e
    let h := 2 ^ (e - 1)
    if h < r ∨ (r = h ∧ q % 2 = 1) then (q + 1) * 2 ^ e else q * 2 ^ e

/-- Modelled value of `(uint64_t)((double)n * 0.5 + 1.0)`:
`(double)n` has exact value `fp53 n`; multiplication by 0.5 is exact; adding
1.0 rounds the half-unit value `fp53 n + 2` to binary64; the cast truncates
toward zero. -/
def doubleSeed (n : Nat) : Nat := fp53 (fp53 n + 2) / 2

/-- `isqrt_uint64` from the source: floating-point seed, three Newton
refinement steps in uint64 arithmetic, then the correction step
`if (x > n / x) x--`. -/
def isqrt_uint64 (n : Nat) : Nat :=
  if n = 0 then 0
  else
    let x0 := doubleSeed n
    let x1 := (x0 + n / x0) % U64 / 2
    let x2 := (x1 + n / x1) % U64 / 2
    let x3 := (x2 + n / x2) % U64 / 2
    if x3 > n / x3 then x3 - 1 else x3

/-- `is_qr_mod` from the source: reduce once (`val %= mod`), accept 0, then
consult the hard-coded residue table for the modulus. -/
def is_qr_mod (val mod : Nat) : Bool :=
  let v := val % mod
  if v = 0 then true
  else match mod with
    | 3 => v == 1
    | 5 => v == 1 || v == 4
    | 7 => v == 1 || v == 2 || v == 4
    | 11 => v == 1 || v == 3 || v == 4 || v == 5 || v == 9
    | 13 => v == 1 || v == 3 || v == 4 || v == 9 || v == 10 || v == 12
    | 17 => v == 1 || v == 2 || v == 4 || v == 8 || v == 9 || v == 13 || v == 15 || v == 16
    | 19 => v == 1 || v == 4 || v == 5 || v == 6 || v == 7 || v == 9 || v == 11 || v == 16 || v == 17
    | 23 => [1, 2, 3, 4, 6, 8, 9, 12, 13, 16, 18, 22].contains v
    | 29 => [1, 4, 5, 6, 7, 9, 13, 16, 20, 22, 23, 24, 25, 28].contains v
    | _ => false

/-- The fixed modulus set `Q[9]` of the kernel. -/
def Q : List Nat := [3, 5, 7, 11, 13, 17, 19, 23, 29]

/-- Which of the kernel's early returns (or final branches) a thread takes. -/
inductive KOutcome where
  | outOfRange
  | ceilingSkip
  | overflowSkip
  | filtered
  | notSquare
  | found
deriving DecidableEq

/-- The body of `eta_congruent_kernel` for one thread, with the guards in
source order. The guards `eta != 0` and `eta <= 1518500249` make the uint64
expressions `2*eta - 1` and `d*d` wrap-free, so they are written as plain
Nat arithmetic; `y*y` can wrap and keeps its `% 2^64`. -/
def kernelOutcome (T n_end eta : Nat) : KOutcome :=
  if eta > n_end ∨ eta = 0 then KOutcome.outOfRange
  else if eta > CEILING then KOutcome.ceilingSkip
  else if (2 * eta - 1) * (2 * eta - 1) > UMAX - T then KOutcome.overflowSkip
  else if (Q.all fun q => is_qr_mod ((T % q + (2 * eta - 1) * (2 * eta - 1) % q) % q) q) = false
    then KOutcome.filtered
  else if isqrt_uint64 (T + (2 * eta - 1) * (2 * eta - 1))
        * isqrt_uint64 (T + (2 * eta - 1) * (2 * eta - 1)) % U64
        = T + (2 * eta - 1) * (2 * eta - 1)
    then KOutcome.found
  else KOutcome.notSquare

/-- Effect of one kernel thread on the Global Minimum Register: `atomicMin`
fires only on the `found` path. -/
def workerStep (T n_end eta reg : Nat) : Nat :=
  match kernelOutcome T n_end eta with
  | KOutcome.found => min reg eta
  | _ => reg

/-- An index passes the per-index filter-and-verify test (no range cut). -/
def etaPasses (T eta : Nat) : Bool :=
  match kernelOutcome T UMAX eta with
  | KOutcome.found => true
  | _ => false

/-- One chunk evaluated with one worker per index of `[lo, hi]`, as §4.3 of
the spec describes the parallel pass; the register value after all its
workers have retired. The atomic-minimum reduction makes the outcome
independent of worker order, so the workers are folded in index order. -/
def kernelChunk (T lo hi reg : Nat) : Nat :=
  (List.range' lo (hi + 1 - lo)).foldl (fun r e => workerStep T hi e r) reg

/-- Dispatch a list of contiguous chunk lengths starting at index `lo`,
threading the Global Minimum Register through the chunks. -/
def runChunks (T : Nat) : Nat → List Nat → Nat → Nat
  | _, [], reg => reg
  | lo, s :: rest, reg => runChunks T (lo + s) rest (kernelChunk T lo (lo + s - 1) reg)

/-- Reference fold: minimum of `reg` and the passing indices of a list. -/
def minFold (T : Nat) (l : List Nat) (reg : Nat) : Nat :=
  l.foldl (fun r e => if etaPasses T e then min r e else r) reg

/-- Grid size computed by `search_eta_chunked`:
`(uint32_t)((n1 - n0 + 1 + BLOCK_SIZE - 1) / BLOCK_SIZE)` in uint64
arithmetic, truncated to uint32. -/
def gridOf (n0 n1 : Nat) : Nat :=
  ((n1 + (U64 - n0)) % U64 + 1 + (BLOCK_SIZE - 1)) % U64 / BLOCK_SIZE % 4294967296

/-- A kernel launch `eta_congruent_kernel<<<grid, BLOCK_SIZE>>>`: one thread
per `tid < grid * BLOCK_SIZE`, each computing
`eta = n_start + blockIdx.x * blockDim.x + threadIdx.x` in uint64. -/
def kernelLaunch (T n_start n_end grid reg : Nat) : Nat :=
  (List.range (grid * BLOCK_SIZE)).foldl
    (fun r tid => workerStep T n_end ((n_start + tid) % U64) r) reg

/-- The dispatch loop of `search_eta_chunked`:
`for (n0 = 1; n0 <= n_max; n0 += CHUNK_SIZE)` with
`n1 = (n0 + CHUNK_SIZE - 1 < n_max) ? n0 + CHUNK_SIZE - 1 : n_max`, all in
uint64 arithmetic. `fuel` bounds the number of iterations the model may
take; `none` means the loop has not exited within `fuel` iterations. -/
def search_eta_loop : Nat → Nat → Nat → Nat → Nat → Option Nat
  | 0, _, _, _, _ => none
  | fuel + 1, T, n_max, n0, reg =>
    if n0 ≤ n_max then
      let n1 := if (n0 + CHUNK_SIZE - 1) % U64 < n_max then (n0 + CHUNK_SIZE - 1) % U64 else n_max
      search_eta_loop fuel T n_max ((n0 + CHUNK_SIZE) % U64)
        (kernelLaunch T n0 n1 (gridOf n0 n1) reg)
    else some reg

/-- The chunk upper bound `n1` one loop iteration computes from the
counter `n0`: the source's ternary
`n1 = (n0 + CHUNK_SIZE - 1 < n_max) ? n0 + CHUNK_SIZE - 1 : n_max`
in uint64 arithmetic, named so the dispatch-loop lemmas can speak about
it. -/
def loopN1 (n_max n0 : Nat) : Nat :=
  if (n0 + CHUNK_SIZE - 1) % U64 < n_max then (n0 + CHUNK_SIZE - 1) % U64 else n_max

/-- `main`, after `strtoull` parsing, abstracting the reporting stream and
the CUDA device queries: exit code paired with the search result (`none` in
the second component = no search performed). The outer `none` means the
dispatch loop has not exited within `fuel` iterations. -/
def main_model (argc T n_max fuel : Nat) : Option (Nat × Option Nat) :=
  if argc ≠ 3 then some (1, none)
  else if n_max = 0 then some (1, none)
  else match search_eta_loop fuel T n_max 1 UMAX with
    | some r => some (0, some r)
    | none => none

/-- First iteration count at which the loop counter `1 + k * CHUNK_SIZE`
lands, modulo 2^64, on 2^64 - 255 — the largest value the counter ever
attains (the counter stays ≡ 1 mod 256). -/
def K0 : Nat := 281479271743489

/-- Invariant of the Global Minimum Register: it holds the sentinel, or a
verified index no larger than the safety ceiling. -/
def RegOK (T reg : Nat) : Prop :=
  reg = UMAX ∨ (1 ≤ reg ∧ reg ≤ CEILING ∧ etaPasses T reg = true)

/-- The kernel body reads its range bound only in the first guard, so two
launches agree on any index inside both ranges. -/
lemma kernelOutcome_nend_eq (T : Nat) {n1 n2 e : Nat} (h1 : 1 ≤ e) (h2 : e ≤ n1)
    (h3 : e ≤ n2) : kernelOutcome T n1 e = kernelOutcome T n2 e := by
  unfold kernelOutcome
  rw [if_neg (by omega : ¬(e > n1 ∨ e = 0)), if_neg (by omega : ¬(e > n2 ∨ e = 0))]

/-- A thread that reaches the `found` branch passed every guard. -/
lemma outcome_found_bounds {T n_end eta : Nat}
    (h : kernelOutcome T n_end eta = KOutcome.found) :
    1 ≤ eta ∧ eta ≤ n_end ∧ eta ≤ CEILING := by
  unfold kernelOutcome at h
  split_ifs at h with g1 g2 g3 g4 g5
  all_goals first
    | exact KOutcome.noConfusion h
    | omega

/-- A `found` outcome at any range bound certifies the range-free test. -/
lemma etaPasses_of_found {T n_end eta : Nat}
    (h : kernelOutcome T n_end eta = KOutcome.found) : etaPasses T eta = true := by
  obtain ⟨h1, h2, h3⟩ := outcome_found_bounds h
  have hceil : CEILING ≤ UMAX := by decide
  unfold etaPasses
  rw [kernelOutcome_nend_eq T h1 (Nat.le_trans h3 hceil) h2, h]

lemma found_of_etaPasses {T eta : Nat} (h : etaPasses T eta = true) :
    kernelOutcome T UMAX eta = KOutcome.found := by
  unfold etaPasses at h
  cases hko : kernelOutcome T UMAX eta <;> rw [hko] at h <;> simp_all

/-- Writes to the register never increase it (atomic minimum). -/
lemma workerStep_le (T n_end eta reg : Nat) : workerStep T n_end eta reg ≤ reg := by
  unfold workerStep
  cases hko : kernelOutcome T n_end eta <;> simp [min_le_left]

/-- Whenever a worker actually changes the register, the written value is a
passing index within both the range and the ceiling. -/
lemma workerStep_write {T n_end eta reg : Nat} (h : workerStep T n_end eta reg ≠ reg) :
    1 ≤ eta ∧ eta ≤ n_end ∧ eta ≤ CEILING ∧ etaPasses T eta = true
    ∧ workerStep T n_end eta reg = min reg eta := by
  unfold workerStep at h ⊢
  cases hko : kernelOutcome T n_end eta
  case found =>
    obtain ⟨h1, h2, h3⟩ := outcome_found_bounds hko
    exact ⟨h1, h2, h3, etaPasses_of_found hko, rfl⟩
  all_goals (rw [hko] at h; exact absurd rfl h)

/-- Inside its chunk, a worker's effect is a pure function of the index. -/
lemma workerStep_eq (T : Nat) {hi e : Nat} (h1 : 1 ≤ e) (h2 : e ≤ hi)
    (hhi : hi ≤ UMAX) (reg : Nat) :
    workerStep T hi e reg = if etaPasses T e then min reg e else reg := by
  have hk : kernelOutcome T hi e = kernelOutcome T UMAX e :=
    kernelOutcome_nend_eq T h1 h2 (Nat.le_trans h2 hhi)
  unfold workerStep etaPasses
  rw [hk]
  cases hko : kernelOutcome T UMAX e <;> simp [hko]

/-- Folding the workers of a chunk equals the reference min-fold. -/
lemma chunkFold_eq (T hi : Nat) (hhi : hi ≤ UMAX) :
    ∀ (n lo : Nat), 1 ≤ lo → lo + n ≤ hi + 1 → ∀ reg,
      (List.range' lo n).foldl (fun r e => workerStep T hi e r) reg
        = minFold T (List.range' lo n) reg := by
  intro n
  induction n with
  | zero => intro lo _ _ reg; rfl
  | succ m ih =>
    intro lo hlo hle reg
    rw [List.range'_succ]
    simp only [List.foldl_cons, minFold]
    rw [workerStep_eq T hlo (by omega) hhi reg]
    have := ih (lo + 1) (by omega) (by omega) (if etaPasses T lo then min reg lo else reg)
    simpa [minFold] using this

lemma kernelChunk_eq_minFold (T : Nat) {lo hi : Nat} (hlo : 1 ≤ lo) (hlohi : lo ≤ hi + 1)
    (hhi : hi ≤ UMAX) (reg : Nat) :
    kernelChunk T lo hi reg = minFold T (List.range' lo (hi + 1 - lo)) reg := by
  unfold kernelChunk
  exact chunkFold_eq T hi hhi (hi + 1 - lo) lo hlo (by omega) reg

/-- Dispatching any list of contiguous chunks is the min-fold over the
concatenation of their index ranges. -/
lemma runChunks_eq_minFold (T : Nat) :
    ∀ (sizes : List Nat) (lo : Nat), 1 ≤ lo → lo + sizes.sum ≤ UMAX + 1 → ∀ reg,
      runChunks T lo sizes reg = minFold T (List.range' lo sizes.sum) reg := by
  intro sizes
  induction sizes with
  | nil => intro lo _ _ reg; rfl
  | cons s rest ih =>
    intro lo hlo hsum reg
    have hsum' : (s :: rest).sum = s + rest.sum := List.sum_cons
    rw [hsum'] at hsum
    show runChunks T (lo + s) rest (kernelChunk T lo (lo + s - 1) reg) = _
    rw [ih (lo + s) (by omega) (by omega)]
    rw [kernelChunk_eq_minFold T hlo (by omega) (by omega)]
    have hls : lo + s - 1 + 1 - lo = s := by omega
    rw [hls, hsum']
    simp only [minFold, ← List.foldl_append]
    have happ := List.range'_append lo s rest.sum 1
    simp only [one_mul] at happ
    rw [happ, Nat.add_comm rest.sum s]

lemma minFold_le (T : Nat) : ∀ (l : List Nat) (reg : Nat), minFold T l reg ≤ reg := by
  intro l
  induction l with
  | nil => intro reg; exact Nat.le_refl reg
  | cons e rest ih =>
    intro reg
    refine Nat.le_trans (ih _) ?_
    by_cases h : etaPasses T e = true <;> simp [h, min_le_left]

lemma minFold_le_mem (T : Nat) :
    ∀ (l : List Nat) (reg e : Nat), e ∈ l → etaPasses T e = true → minFold T l reg ≤ e := by
  intro l
  induction l with
  | nil => intro reg e he _; cases he
  | cons a rest ih =>
    intro reg e he hp
    rcases List.mem_cons.mp he with rfl | hmem
    · show minFold T rest (if etaPasses T e then min reg e else reg) ≤ e
      rw [if_pos hp]
      exact Nat.le_trans (minFold_le T rest _) (Nat.min_le_right reg e)
    · exact ih _ e hmem hp

lemma minFold_cases (T : Nat) :
    ∀ (l : List Nat) (reg : Nat),
      minFold T l reg = reg
      ∨ (minFold T l reg ∈ l ∧ etaPasses T (minFold T l reg) = true) := by
  intro l
  induction l with
  | nil => intro reg; exact Or.inl rfl
  | cons a rest ih =>
    intro reg
    have step : minFold T (a :: rest) reg
        = minFold T rest (if etaPasses T a then min reg a else reg) := rfl
    rcases ih (if etaPasses T a then min reg a else reg) with h | ⟨hmem, hp⟩
    · rw [step, h]
      by_cases hpa : etaPasses T a = true
      · rw [if_pos hpa]
        rcases min_choice reg a with hm | hm
        · exact Or.inl hm
        · refine Or.inr ⟨?_, ?_⟩
          · rw [hm]; exact List.mem_cons_self a rest
          · rw [hm]; exact hpa
      · rw [if_neg hpa]
        exact Or.inl rfl
    · rw [step]
      exact Or.inr ⟨List.mem_cons_of_mem a hmem, hp⟩

lemma workerStep_RegOK {T reg : Nat} (n_end eta : Nat) (h : RegOK T reg) :
    RegOK T (workerStep T n_end eta reg) := by
  by_cases hw : workerStep T n_end eta reg = reg
  · rw [hw]; exact h
  · obtain ⟨h1, _, h3, h4, h5⟩ := workerStep_write hw
    rw [h5]
    rcases min_choice reg eta with hm | hm
    · rw [hm]; exact h
    · rw [hm]; exact Or.inr ⟨h1, h3, h4⟩

lemma kernelChunk_RegOK {T : Nat} (lo hi : Nat) {reg : Nat} (h : RegOK T reg) :
    RegOK T (kernelChunk T lo hi reg) := by
  unfold kernelChunk
  generalize List.range' lo (hi + 1 - lo) = l
  induction l generalizing reg with
  | nil => exact h
  | cons e rest ih => exact ih (workerStep_RegOK hi e h)

lemma runChunks_RegOK {T : Nat} :
    ∀ (sizes : List Nat) (lo reg : Nat), RegOK T reg → RegOK T (runChunks T lo sizes reg) := by
  intro sizes
  induction sizes with
  | nil => intro lo reg h; exact h
  | cons s rest ih =>
    intro lo reg h
    exact ih (lo + s) _ (kernelChunk_RegOK lo (lo + s - 1) h)

/-- C1: the exact square verification is NOT exact. The code slips: three
Newton steps seeded from `(double)n * 0.5 + 1.0` do not converge to the
floor square root (the seed is near n/2, and each step only halves it), and
the single correction step cannot repair that. Already at the perfect
square 169 = 13 * 13 — reachable as candidate = T + d^2 with T = 168,
eta = 1 — the computed root is 14, not 13, so `y*y == candidate` is false:
a false negative, against the contract "no false positives, no false
negatives for all candidate values". (The seed 85 of this run is
float-model independent: (double)169 * 0.5 + 1.0 = 85.5 exactly, truncated
to 85.) -/
theorem c1_isqrt_not_exact :
    isqrt_uint64 169 = 14
    ∧ isqrt_uint64 169 * isqrt_uint64 169 % U64 ≠ 169
    ∧ 13 * 13 = 169
    ∧ kernelOutcome 168 10 1 = KOutcome.notSquare := by
  decide

/-- C2: the hard-coded residue table for modulus 23 does not exactly match
the quadratic residues mod 23: it wrongly contains 22 (= -1 mod 23, a
non-residue since 23 = 3 mod 4), so `is_qr_mod 22 23` returns true although
no x < 23 has x * x = 22 (mod 23). All eight other tables are exact, and
the stray entry is a false positive of the filter only, so it cannot drop a
real square. -/
theorem c2_qr_table_stray_entry :
    is_qr_mod 22 23 = true
    ∧ (∀ x, x < 23 → x * x % 23 ≠ 22)
    ∧ (∀ q, q ∈ Q → q ≠ 23 →
        ∀ v, v < q → (is_qr_mod v q = ((List.range q).any fun x => x * x % q == v))) := by
  refine ⟨by decide, by decide, ?_⟩
  intro q hq hne
  fin_cases hq <;> simp_all <;> decide

/-- C9: concrete scenario T = 3, n_max = 10. The dispatch loop (one chunk,
grid 1, 256 threads) leaves eta = 1 in the register: index 1 gives d = 1,
candidate = 4 = 2 * 2, which survives all nine residue filters and exact
verification; and the reported derived value 4 * eta - 2 equals 2. -/
theorem c9_concrete_scenario :
    search_eta_loop 2 3 10 1 UMAX = some 1
    ∧ kernelOutcome 3 10 1 = KOutcome.found
    ∧ (Q.all fun q => is_qr_mod ((3 % q + 1 * 1 % q) % q) q) = true
    ∧ 4 * 1 - 2 = 2 := by
  decide

/-- C3: the chunked search is bit-exact equivalent to an exhaustive
sequential scan. For every T, every n_max in [1, ULLONG_MAX] and every
partition of [1, n_max] into contiguous chunks (given by the list of chunk
lengths, summing to n_max), the register value after dispatching all chunks
equals the single-chunk evaluation of [1, n_max]; that value is a lower
bound of every passing index and is either the sentinel ULLONG_MAX or a
passing index in [1, n_max] — i.e. the minimum eta whose candidate passes
the per-index filter-and-verify test, or the sentinel if none does. -/
theorem c3_chunked_bitexact (T n_max : Nat) (h1 : 1 ≤ n_max) (h2 : n_max ≤ UMAX)
    (sizes : List Nat) (hsum : sizes.sum = n_max) :
    runChunks T 1 sizes UMAX = kernelChunk T 1 n_max UMAX
    ∧ (∀ eta, 1 ≤ eta → eta ≤ n_max → etaPasses T eta = true →
        kernelChunk T 1 n_max UMAX ≤ eta)
    ∧ (kernelChunk T 1 n_max UMAX = UMAX
       ∨ (1 ≤ kernelChunk T 1 n_max UMAX ∧ kernelChunk T 1 n_max UMAX ≤ n_max
          ∧ etaPasses T (kernelChunk T 1 n_max UMAX) = true)) := by
  have hk : kernelChunk T 1 n_max UMAX = minFold T (List.range' 1 n_max) UMAX := by
    have h := kernelChunk_eq_minFold T (Nat.le_refl 1)
      (by omega : (1 : Nat) ≤ n_max + 1) h2 UMAX
    simpa using h
  refine ⟨?_, ?_, ?_⟩
  · rw [hk, runChunks_eq_minFold T sizes 1 (Nat.le_refl 1) (by omega), hsum]
  · intro eta he1 he2 hp
    rw [hk]
    exact minFold_le_mem T _ _ eta (List.mem_range'_1.mpr ⟨he1, by omega⟩) hp
  · rw [hk]
    rcases minFold_cases T (List.range' 1 n_max) UMAX with h | ⟨hmem, hp⟩
    · exact Or.inl h
    · have hb := List.mem_range'_1.mp hmem
      exact Or.inr ⟨hb.1, by omega, hp⟩

/-- Witness for C3 at T = 3, n_max = 10, with the two-chunk partition
[1..4], [5..10]: the chunked register equals the single-chunk register. -/
theorem c3_witness :
    (1 ≤ 10 ∧ 10 ≤ UMAX ∧ ([4, 6] : List Nat).sum = 10)
    ∧ runChunks 3 1 [4, 6] UMAX = kernelChunk 3 1 10 UMAX :=
  ⟨⟨by decide, by decide, by decide⟩,
   (c3_chunked_bitexact 3 10 (by decide) (by decide) [4, 6] (by decide)).1⟩

/-- C10: the Global Minimum Register invariant. It starts at ULLONG_MAX;
every worker write decreases it; a worker that changes it writes
min(reg, eta) for an eta with 1 <= eta <= min(n_end, 1518500249) whose
candidate passed verification; every passing index is at most the ceiling
and hence never equals the sentinel; and after any chunked dispatch the
final value is either the sentinel or a passing index at most the
ceiling. -/
theorem c10_register_invariant (T : Nat) :
    (∀ n_end eta reg, workerStep T n_end eta reg ≤ reg)
    ∧ (∀ n_end eta reg, workerStep T n_end eta reg ≠ reg →
        1 ≤ eta ∧ eta ≤ n_end ∧ eta ≤ CEILING ∧ etaPasses T eta = true
        ∧ workerStep T n_end eta reg = min reg eta)
    ∧ (∀ eta, etaPasses T eta = true → 1 ≤ eta ∧ eta ≤ CEILING ∧ eta ≠ UMAX)
    ∧ (∀ sizes, runChunks T 1 sizes UMAX = UMAX
        ∨ (1 ≤ runChunks T 1 sizes UMAX ∧ runChunks T 1 sizes UMAX ≤ CEILING
           ∧ etaPasses T (runChunks T 1 sizes UMAX) = true)) := by
  refine ⟨fun n_end eta reg => workerStep_le T n_end eta reg,
          fun n_end eta reg h => workerStep_write h, ?_, ?_⟩
  · intro eta hp
    obtain ⟨hb1, _, hb3⟩ := outcome_found_bounds (found_of_etaPasses hp)
    have hcu : CEILING < UMAX := by decide
    exact ⟨hb1, hb3, by omega⟩
  · intro sizes
    exact runChunks_RegOK sizes 1 UMAX (Or.inl rfl)

/-- Witness for C10 at T = 3: a worker write never increases the register. -/
theorem c10_witness : workerStep 3 10 1 UMAX ≤ UMAX :=
  (c10_register_invariant 3).1 10 1 UMAX

/-- The loop counter `n0` stays ≡ 1 (mod 256) — CHUNK_SIZE and 2^64 are
both multiples of 256 — and stays below 2^64, so it never exceeds
2^64 - 255; with n_max ≥ 2^64 - 255 the exit test `n0 > n_max` never
fires and the loop runs forever. -/
lemma search_eta_loop_none {T n_max : Nat} (hmax : U64 - 255 ≤ n_max) :
    ∀ (fuel n0 reg : Nat), n0 < U64 → n0 % 256 = 1 →
      search_eta_loop fuel T n_max n0 reg = none := by
  intro fuel
  induction fuel with
  | zero => intro n0 reg _ _; rfl
  | succ f ih =>
    intro n0 reg hlt hmod
    have hU : U64 = 18446744073709551616 := rfl
    have hC : CHUNK_SIZE = 16776960 := rfl
    have hle : n0 ≤ n_max := by omega
    have hlt2 : (n0 + CHUNK_SIZE) % U64 < U64 := Nat.mod_lt _ (by omega)
    have hdvd : (256 : Nat) ∣ U64 := ⟨72057594037927936, rfl⟩
    have hmod2 : ((n0 + CHUNK_SIZE) % U64) % 256 = 1 := by
      rw [Nat.mod_mod_of_dvd _ hdvd]
      omega
    simp only [search_eta_loop]
    rw [if_pos hle]
    exact ih ((n0 + CHUNK_SIZE) % U64) _ hlt2 hmod2

/-- If after k more increments the uint64 loop counter exceeds n_max, the
loop exits within k + 1 iterations. -/
lemma search_eta_loop_exits (T n_max : Nat) :
    ∀ (k n0 : Nat), n0 < U64 → n_max < (n0 + k * CHUNK_SIZE) % U64 →
      ∀ reg, ∃ r, search_eta_loop (k + 1) T n_max n0 reg = some r := by
  intro k
  induction k with
  | zero =>
    intro n0 hlt hgt reg
    rw [Nat.zero_mul, Nat.add_zero, Nat.mod_eq_of_lt hlt] at hgt
    refine ⟨reg, ?_⟩
    simp only [search_eta_loop]
    rw [if_neg (by omega)]
  | succ m ih =>
    intro n0 hlt hgt reg
    by_cases hle : n0 ≤ n_max
    · have hlt2 : (n0 + CHUNK_SIZE) % U64 < U64 := Nat.mod_lt _ (by decide)
      have harith : n_max < ((n0 + CHUNK_SIZE) % U64 + m * CHUNK_SIZE) % U64 := by
        rw [Nat.mod_add_mod]
        have hr : n0 + CHUNK_SIZE + m * CHUNK_SIZE = n0 + (m + 1) * CHUNK_SIZE := by ring
        rw [hr]
        exact hgt
      simp only [search_eta_loop]
      rw [if_pos hle]
      exact ih ((n0 + CHUNK_SIZE) % U64) hlt2 harith _
    · refine ⟨reg, ?_⟩
      simp only [search_eta_loop]
      rw [if_neg hle]

/-- For every n_max up to 2^64 - 256 the dispatch loop exits: at iteration
K0 the counter reaches 2^64 - 255, the largest value it ever attains. -/
lemma search_eta_loop_terminates (T n_max : Nat) (h1 : 1 ≤ n_max)
    (h2 : n_max ≤ U64 - 256) :
    ∃ fuel r, search_eta_loop fuel T n_max 1 UMAX = some r := by
  have hk : (1 + K0 * CHUNK_SIZE) % U64 = U64 - 255 := by decide
  obtain ⟨r, hr⟩ := search_eta_loop_exits T n_max K0 1 (by decide)
    (by rw [hk]; omega) UMAX
  exact ⟨K0 + 1, r, hr⟩

/-- Unfolding a running loop iteration (`n0 <= n_max`). -/
lemma search_eta_loop_step (fuel T n_max n0 reg : Nat) (h : n0 ≤ n_max) :
    search_eta_loop (fuel + 1) T n_max n0 reg
      = search_eta_loop fuel T n_max ((n0 + CHUNK_SIZE) % U64)
          (kernelLaunch T n0 (loopN1 n_max n0) (gridOf n0 (loopN1 n_max n0)) reg) := by
  simp only [search_eta_loop, loopN1]
  rw [if_pos h]

/-- Unfolding the loop exit (`n0 > n_max`). -/
lemma search_eta_loop_stop (fuel T n_max n0 reg : Nat) (h : ¬n0 ≤ n_max) :
    search_eta_loop (fuel + 1) T n_max n0 reg = some reg := by
  simp only [search_eta_loop]
  rw [if_neg h]

/-- An iteration's chunk bound never exceeds n_max. -/
lemma loopN1_le_nmax (n_max n0 : Nat) : loopN1 n_max n0 ≤ n_max := by
  unfold loopN1
  by_cases hc : (n0 + CHUNK_SIZE - 1) % U64 < n_max
  · rw [if_pos hc]; omega
  · rw [if_neg hc]

/-- When an iteration's chunk reaches an in-range index at or above its
counter, the chunk is well formed: its width is below CHUNK_SIZE, so the
uint32 truncation of the grid size is lossless. -/
lemma loopN1_bounds (n_max n0 eta : Nat) (h0 : n0 < U64) (he1 : n0 ≤ eta)
    (he2 : eta ≤ n_max) (hmax : n_max ≤ U64 - 256) (hcov : eta ≤ loopN1 n_max n0) :
    n0 ≤ loopN1 n_max n0 ∧ loopN1 n_max n0 - n0 ≤ CHUNK_SIZE - 1
    ∧ loopN1 n_max n0 < U64 := by
  unfold loopN1 at hcov ⊢
  by_cases hc : (n0 + CHUNK_SIZE - 1) % U64 < n_max
  · rw [if_pos hc] at hcov ⊢
    simp only [U64, CHUNK_SIZE, BLOCK_SIZE, MAX_GRID_DIM] at *
    omega
  · rw [if_neg hc] at hcov ⊢
    simp only [U64, CHUNK_SIZE, BLOCK_SIZE, MAX_GRID_DIM] at *
    omega

/-- When an iteration's chunk falls short of an in-range index at or above
its counter, the next counter value still does not pass that index: a
non-wrapping increment lands at `n0 + CHUNK_SIZE <= eta`, and a wrapping
increment lands below CHUNK_SIZE while the index is at least
2^64 - CHUNK_SIZE. -/
lemma loop_next_le (n_max n0 eta : Nat) (h0 : n0 < U64) (_he1 : n0 ≤ eta)
    (he2 : eta ≤ n_max) (hmax : n_max ≤ U64 - 256) (hnc : loopN1 n_max n0 < eta) :
    (n0 + CHUNK_SIZE) % U64 ≤ eta := by
  unfold loopN1 at hnc
  by_cases hc : (n0 + CHUNK_SIZE - 1) % U64 < n_max
  · rw [if_pos hc] at hnc
    simp only [U64, CHUNK_SIZE, BLOCK_SIZE, MAX_GRID_DIM] at *
    omega
  · rw [if_neg hc] at hnc
    simp only [U64, CHUNK_SIZE, BLOCK_SIZE, MAX_GRID_DIM] at *
    omega

/-- A well-formed chunk's launch provides a thread for every index of
`[n0, n1]`: grid * BLOCK_SIZE covers the chunk width. -/
lemma gridOf_covers (n0 n1 : Nat) (h2 : n0 ≤ n1) (h3 : n1 - n0 ≤ CHUNK_SIZE - 1)
    (h4 : n1 < U64) : n1 - n0 + 1 ≤ gridOf n0 n1 * BLOCK_SIZE := by
  unfold gridOf
  simp only [U64, CHUNK_SIZE, BLOCK_SIZE, MAX_GRID_DIM] at *
  omega

/-- A step function that preserves a predicate preserves it through a
fold. -/
lemma foldl_pres {g : Nat → Nat → Nat} {P : Nat → Prop}
    (hg : ∀ r t, P r → P (g r t)) :
    ∀ (l : List Nat) (reg : Nat), P reg → P (l.foldl g reg) := by
  intro l
  induction l with
  | nil => intro reg h; exact h
  | cons a rest ih => intro reg h; exact ih _ (hg reg a h)

/-- A fold of steps that never increase the accumulator never increases
it. -/
lemma foldl_descends {g : Nat → Nat → Nat} (hg : ∀ r t, g r t ≤ r) :
    ∀ (l : List Nat) (reg : Nat), l.foldl g reg ≤ reg := by
  intro l
  induction l with
  | nil => intro reg; exact Nat.le_refl reg
  | cons a rest ih => intro reg; exact Nat.le_trans (ih (g reg a)) (hg reg a)

/-- If one element of the fold caps the accumulator at `b` and no step
increases it, the fold result is at most `b`. -/
lemma foldl_hit {g : Nat → Nat → Nat} (hmono : ∀ r t, g r t ≤ r) {t0 b : Nat}
    (hhit : ∀ r, g r t0 ≤ b) :
    ∀ (l : List Nat) (reg : Nat), t0 ∈ l → l.foldl g reg ≤ b := by
  intro l
  induction l with
  | nil => intro reg h; cases h
  | cons a rest ih =>
    intro reg hmem
    rcases List.mem_cons.mp hmem with rfl | hmem
    · exact Nat.le_trans (foldl_descends hmono rest (g reg t0)) (hhit reg)
    · exact ih _ hmem

/-- A kernel launch never increases the register. -/
lemma kernelLaunch_le (T n_start n_end grid reg : Nat) :
    kernelLaunch T n_start n_end grid reg ≤ reg := by
  unfold kernelLaunch
  exact foldl_descends (fun r t => workerStep_le T n_end ((n_start + t) % U64) r) _ reg

/-- A kernel launch with its range inside [1, n_max] keeps the register at
or above the exhaustive minimum of [1, n_max]: every write is a passing
in-range index. -/
lemma kernelLaunch_ge (T n_max n_start n_end grid reg : Nat) (hne : n_end ≤ n_max)
    (_hmax : n_max < U64)
    (hM : minFold T (List.range' 1 n_max) UMAX ≤ reg) :
    minFold T (List.range' 1 n_max) UMAX
      ≤ kernelLaunch T n_start n_end grid reg := by
  unfold kernelLaunch
  refine foldl_pres ?_ _ reg hM
  intro r t hr
  by_cases hw : workerStep T n_end ((n_start + t) % U64) r = r
  · rw [hw]; exact hr
  · obtain ⟨g1, g2, _, g4, g5⟩ := workerStep_write hw
    rw [g5]
    have hmem : (n_start + t) % U64 ∈ List.range' 1 n_max :=
      List.mem_range'_1.mpr ⟨g1, by omega⟩
    exact le_min hr (minFold_le_mem T _ UMAX _ hmem g4)

/-- A launch whose thread range reaches a passing index `eta` of its chunk
drives the register to at most `eta`. -/
lemma kernelLaunch_hit (T n_start n_end grid reg eta : Nat) (h1 : 1 ≤ eta)
    (h2 : n_start ≤ eta) (h3 : eta ≤ n_end) (h4 : n_end ≤ UMAX) (h5 : eta < U64)
    (h6 : eta - n_start < grid * BLOCK_SIZE) (hpass : etaPasses T eta = true) :
    kernelLaunch T n_start n_end grid reg ≤ eta := by
  unfold kernelLaunch
  refine foldl_hit (fun r t => workerStep_le T n_end ((n_start + t) % U64) r) ?_ _ reg
    (List.mem_range.mpr h6)
  intro r
  have he : (n_start + (eta - n_start)) % U64 = eta := by
    have hsum : n_start + (eta - n_start) = eta := by omega
    rw [hsum]
    exact Nat.mod_eq_of_lt h5
  rw [he]
  unfold workerStep
  rw [kernelOutcome_nend_eq T h1 h3 (Nat.le_trans h3 h4), found_of_etaPasses hpass]
  exact Nat.min_le_right r eta

/-- A terminating run never returns more than its initial register. -/
lemma search_eta_loop_le_start (T n_max : Nat) :
    ∀ fuel n0 reg r, search_eta_loop fuel T n_max n0 reg = some r → r ≤ reg := by
  intro fuel
  induction fuel with
  | zero => intro n0 reg r h; exact Option.noConfusion h
  | succ f ih =>
    intro n0 reg r hrun
    by_cases hle : n0 ≤ n_max
    · rw [search_eta_loop_step f T n_max n0 reg hle] at hrun
      exact Nat.le_trans (ih _ _ r hrun) (kernelLaunch_le T n0 _ _ reg)
    · rw [search_eta_loop_stop f T n_max n0 reg hle] at hrun
      rw [← Option.some.inj hrun]

/-- Soundness half of loop correctness: a terminating run never drops the
register below the exhaustive minimum of [1, n_max]. -/
lemma search_eta_loop_lb (T n_max : Nat) (hmax : n_max < U64) :
    ∀ fuel n0 reg r, minFold T (List.range' 1 n_max) UMAX ≤ reg →
      search_eta_loop fuel T n_max n0 reg = some r →
      minFold T (List.range' 1 n_max) UMAX ≤ r := by
  intro fuel
  induction fuel with
  | zero => intro n0 reg r _ h; exact Option.noConfusion h
  | succ f ih =>
    intro n0 reg r hM hrun
    by_cases hle : n0 ≤ n_max
    · rw [search_eta_loop_step f T n_max n0 reg hle] at hrun
      exact ih _ _ r
        (kernelLaunch_ge T n_max n0 _ _ reg (loopN1_le_nmax n_max n0) hmax hM) hrun
    · rw [search_eta_loop_stop f T n_max n0 reg hle] at hrun
      rw [← Option.some.inj hrun]
      exact hM

/-- Coverage half of loop correctness: a terminating run visits every
in-range index. For a fixed passing index eta, as long as the counter is
at or below eta, either the current chunk reaches eta (its launch caps the
register at eta, and the chunk is well formed so the grid truncation loses
no thread) or the next counter value is still at or below eta; once the
register is at or below eta it stays there. -/
lemma search_eta_loop_ub (T n_max eta : Nat) (he1 : 1 ≤ eta) (he2 : eta ≤ n_max)
    (hmax : n_max ≤ U64 - 256) (hpass : etaPasses T eta = true) :
    ∀ fuel n0 reg r, n0 < U64 → (n0 ≤ eta ∨ reg ≤ eta) →
      search_eta_loop fuel T n_max n0 reg = some r → r ≤ eta := by
  have hU : U64 = 18446744073709551616 := rfl
  have hM : UMAX = 18446744073709551615 := rfl
  intro fuel
  induction fuel with
  | zero => intro n0 reg r _ _ h; exact Option.noConfusion h
  | succ f ih =>
    intro n0 reg r hn0U hdisj hrun
    by_cases hle : n0 ≤ n_max
    · rw [search_eta_loop_step f T n_max n0 reg hle] at hrun
      have hn0'U : (n0 + CHUNK_SIZE) % U64 < U64 := Nat.mod_lt _ (by decide)
      rcases hdisj with hcase | hcase
      · by_cases hcov : eta ≤ loopN1 n_max n0
        · obtain ⟨b1, b2, b3⟩ := loopN1_bounds n_max n0 eta hn0U hcase he2 hmax hcov
          have hgrid := gridOf_covers n0 (loopN1 n_max n0) b1 b2 b3
          have hreg' : kernelLaunch T n0 (loopN1 n_max n0)
              (gridOf n0 (loopN1 n_max n0)) reg ≤ eta :=
            kernelLaunch_hit T n0 _ _ reg eta he1 hcase hcov (by omega) (by omega)
              (by omega) hpass
          exact ih _ _ r hn0'U (Or.inr hreg') hrun
        · have hnext := loop_next_le n_max n0 eta hn0U hcase he2 hmax (by omega)
          exact ih _ _ r hn0'U (Or.inl hnext) hrun
      · have hreg' : kernelLaunch T n0 (loopN1 n_max n0)
            (gridOf n0 (loopN1 n_max n0)) reg ≤ eta :=
          Nat.le_trans (kernelLaunch_le T n0 _ _ reg) hcase
        exact ih _ _ r hn0'U (Or.inr hreg') hrun
    · rw [search_eta_loop_stop f T n_max n0 reg hle] at hrun
      have hr : reg = r := Option.some.inj hrun
      rcases hdisj with hcase | hcase
      · omega
      · omega

/-- C4 (amended): for every T and every n_max with
1 <= n_max <= 2^64 - 256, the dispatch loop of `search_eta_chunked`
terminates after finitely many chunk iterations, having covered the whole
range [1, n_max]: the register it leaves equals the exhaustive
single-chunk evaluation of [1, n_max] (which C3 characterizes as the
minimum passing index or the sentinel), for every T. The claim's full
64-bit range is refuted by the counterexample: for n_max in
[2^64 - 255, 2^64 - 1] the uint64 counter n0 = 1 + k * CHUNK_SIZE wraps
modulo 2^64, stays ≡ 1 (mod 256), never exceeds n_max, and the loop never
exits. -/
theorem c4_loop_termination (T n_max : Nat) (h1 : 1 ≤ n_max) (h2 : n_max ≤ U64 - 256) :
    ∃ fuel, search_eta_loop fuel T n_max 1 UMAX
      = some (kernelChunk T 1 n_max UMAX) := by
  have hU : U64 = 18446744073709551616 := rfl
  have hMx : UMAX = 18446744073709551615 := rfl
  obtain ⟨fuel, r, hr⟩ := search_eta_loop_terminates T n_max h1 h2
  have hk : kernelChunk T 1 n_max UMAX = minFold T (List.range' 1 n_max) UMAX := by
    have h := kernelChunk_eq_minFold T (Nat.le_refl 1)
      (by omega : (1 : Nat) ≤ n_max + 1) (by omega) UMAX
    simpa using h
  have hge : minFold T (List.range' 1 n_max) UMAX ≤ r :=
    search_eta_loop_lb T n_max (by omega) fuel 1 UMAX r (minFold_le T _ UMAX) hr
  have hle2 : r ≤ minFold T (List.range' 1 n_max) UMAX := by
    rcases minFold_cases T (List.range' 1 n_max) UMAX with hc | ⟨hmem, hp⟩
    · rw [hc]
      exact search_eta_loop_le_start T n_max fuel 1 UMAX r hr
    · have hb := List.mem_range'_1.mp hmem
      exact search_eta_loop_ub T n_max _ hb.1 (by omega) h2 hp fuel 1 UMAX r
        (by decide) (Or.inl hb.1) hr
  have hreq : r = kernelChunk T 1 n_max UMAX := by
    rw [hk]
    omega
  rw [hreq] at hr
  exact ⟨fuel, hr⟩

/-- Witness for C4 at T = 0, n_max = 10. -/
theorem c4_witness :
    (1 ≤ 10 ∧ 10 ≤ U64 - 256)
    ∧ ∃ fuel, search_eta_loop fuel 0 10 1 UMAX = some (kernelChunk 0 1 10 UMAX) :=
  ⟨⟨by decide, by decide⟩, c4_loop_termination 0 10 (by decide) (by decide)⟩

/-- C4 counterexample: at n_max = ULLONG_MAX the dispatch loop never
exits, whatever the iteration budget — the claimed termination over the
full 64-bit range of n_max is false. -/
theorem c4_counterexample :
    ¬ ∃ fuel r, search_eta_loop fuel 0 UMAX 1 UMAX = some r := by
  rintro ⟨fuel, r, hr⟩
  rw [search_eta_loop_none (by decide) fuel 1 UMAX (by decide) (by decide)] at hr
  exact Option.noConfusion hr

/-- C8 (amended): usage errors (argument count different from 3, or parsed
n_max = 0) exit with code 1 and perform no search; with valid arguments
the process exits with code 0 — whether or not an eta was found — whenever
the dispatch loop terminates, which holds for every n_max up to
2^64 - 256. The counterexample shows the remaining n_max values never
exit at all, refuting the unrestricted "in every other case exits 0". -/
theorem c8_exit_codes (argc T n_max fuel : Nat) :
    ((argc ≠ 3 ∨ n_max = 0) → main_model argc T n_max fuel = some (1, none))
    ∧ (argc = 3 → 1 ≤ n_max → n_max ≤ U64 - 256 →
        ∃ fuel2 r, main_model argc T n_max fuel2 = some (0, some r)) := by
  constructor
  · rintro (h | h)
    · unfold main_model
      rw [if_pos h]
    · unfold main_model
      by_cases ha : argc ≠ 3
      · rw [if_pos ha]
      · rw [if_neg ha, if_pos h]
  · rintro rfl hn1 hn2
    obtain ⟨fuel2, r, hr⟩ := search_eta_loop_terminates T n_max hn1 hn2
    refine ⟨fuel2, r, ?_⟩
    unfold main_model
    rw [if_neg (by omega), if_neg (by omega), hr]

/-- Witness for C8: argc = 2 is a usage error; argc = 3 with T = 3,
n_max = 10 exits 0 with a search result. -/
theorem c8_witness :
    main_model 2 3 10 0 = some (1, none)
    ∧ ∃ fuel2 r, main_model 3 3 10 fuel2 = some (0, some r) :=
  ⟨(c8_exit_codes 2 3 10 0).1 (Or.inl (by decide)),
   (c8_exit_codes 3 3 10 0).2 rfl (by decide) (by decide)⟩

/-- C8 counterexample: the valid invocation argc = 3, T = 0,
n_max = ULLONG_MAX never exits at all (the dispatch loop never
terminates), so "in every other case the process exits with code 0" is
false as stated. -/
theorem c8_counterexample :
    ¬ ∃ fuel res, main_model 3 0 UMAX fuel = some res := by
  rintro ⟨fuel, res, hr⟩
  unfold main_model at hr
  rw [if_neg (by decide), if_neg (by decide)] at hr
  rw [search_eta_loop_none (by decide) fuel 1 UMAX (by decide) (by decide)] at hr
  exact Option.noConfusion hr

/-- C5: guard skips. For every T, range bound and register value, an index
above the hard safety ceiling 1518500249, or whose d^2 (d = 2*eta - 1)
would overflow the 64-bit range when added to T, is skipped entirely: the
thread takes one of the three early returns that precede the filter and
the verification, and the register is left untouched. The ceiling guard
reads neither n_end nor n_max, so the index one past the ceiling is
excluded even when the requested bound exceeds the ceiling. -/
theorem c5_guard_skips (T n_end eta reg : Nat) (_h1 : 1 ≤ eta)
    (h : CEILING < eta ∨ UMAX - T < (2 * eta - 1) * (2 * eta - 1)) :
    workerStep T n_end eta reg = reg
    ∧ (kernelOutcome T n_end eta = KOutcome.outOfRange
       ∨ kernelOutcome T n_end eta = KOutcome.ceilingSkip
       ∨ kernelOutcome T n_end eta = KOutcome.overflowSkip) := by
  have hout : kernelOutcome T n_end eta = KOutcome.outOfRange
      ∨ kernelOutcome T n_end eta = KOutcome.ceilingSkip
      ∨ kernelOutcome T n_end eta = KOutcome.overflowSkip := by
    unfold kernelOutcome
    by_cases g1 : eta > n_end ∨ eta = 0
    · rw [if_pos g1]
      exact Or.inl rfl
    · rw [if_neg g1]
      by_cases g2 : eta > CEILING
      · rw [if_pos g2]
        exact Or.inr (Or.inl rfl)
      · rcases h with h | h
        · omega
        · rw [if_neg g2, if_pos (by omega : (2 * eta - 1) * (2 * eta - 1) > UMAX - T)]
          exact Or.inr (Or.inr rfl)
  refine ⟨?_, hout⟩
  unfold workerStep
  rcases hout with h2 | h2 | h2 <;> rw [h2]

/-- Witness for C5: the index one past the ceiling is skipped although the
range bound far exceeds the ceiling. -/
theorem c5_witness :
    (1 ≤ 1518500250 ∧ CEILING < 1518500250) ∧ workerStep 0 UMAX 1518500250 7 = 7 :=
  ⟨⟨by decide, by decide⟩,
   (c5_guard_skips 0 UMAX 1518500250 7 (by decide) (Or.inl (by decide))).1⟩

/-- Every modulus of the filter set is positive. -/
lemma q_pos {q : Nat} (hq : q ∈ Q) : 0 < q := by
  fin_cases hq <;> decide

/-- Exhaustive check: for each modulus of the set, the residue table
accepts every true square residue x^2 mod q. -/
lemma qr_table_complete :
    (Q.all fun q => (List.range q).all fun r => is_qr_mod (r * r % q) q) = true := by
  decide

/-- The residue test accepts every perfect square, for every modulus of
the set. -/
lemma is_qr_mod_square {q : Nat} (hq : q ∈ Q) (k : Nat) :
    is_qr_mod (k * k % q) q = true := by
  have hpos := q_pos hq
  have hbase := qr_table_complete
  rw [List.all_eq_true] at hbase
  have hq2 := hbase q hq
  rw [List.all_eq_true] at hq2
  have hk : k * k % q = (k % q) * (k % q) % q := by
    rw [Nat.mul_mod]
  rw [hk]
  exact hq2 (k % q) (List.mem_range.mpr (Nat.mod_lt k hpos))

/-- C6: the residue filter has no false negatives. If the candidate
T + (2*eta - 1)^2 of an evaluated index (inside the range, the ceiling and
the overflow guard) is a perfect square k * k, then every one of the nine
per-modulus tests accepts — the conjunction the kernel evaluates is true —
and the thread reaches the exact verification step: its outcome is `found`
or `notSquare`, never `filtered`. -/
theorem c6_no_false_negatives (T n_end eta k : Nat) (h1 : 1 ≤ eta) (h2 : eta ≤ n_end)
    (h3 : eta ≤ CEILING) (h4 : (2 * eta - 1) * (2 * eta - 1) ≤ UMAX - T)
    (hsq : T + (2 * eta - 1) * (2 * eta - 1) = k * k) :
    (Q.all fun q => is_qr_mod ((T % q + (2 * eta - 1) * (2 * eta - 1) % q) % q) q) = true
    ∧ (kernelOutcome T n_end eta = KOutcome.found
       ∨ kernelOutcome T n_end eta = KOutcome.notSquare) := by
  have hall :
      (Q.all fun q => is_qr_mod ((T % q + (2 * eta - 1) * (2 * eta - 1) % q) % q) q) = true := by
    rw [List.all_eq_true]
    intro q hq
    show is_qr_mod ((T % q + (2 * eta - 1) * (2 * eta - 1) % q) % q) q = true
    have hcand : (T % q + (2 * eta - 1) * (2 * eta - 1) % q) % q = k * k % q := by
      rw [← Nat.add_mod, hsq]
    rw [hcand]
    exact is_qr_mod_square hq k
  refine ⟨hall, ?_⟩
  unfold kernelOutcome
  rw [if_neg (by omega : ¬(eta > n_end ∨ eta = 0)),
      if_neg (by omega : ¬eta > CEILING),
      if_neg (by omega : ¬(2 * eta - 1) * (2 * eta - 1) > UMAX - T),
      if_neg (by rw [hall]; decide)]
  split_ifs with hv
  · exact Or.inl rfl
  · exact Or.inr rfl

/-- Witness for C6 at T = 3, eta = 1, k = 2: candidate 4 = 2 * 2 passes
all nine residue tests. -/
theorem c6_witness :
    (3 + (2 * 1 - 1) * (2 * 1 - 1) = 2 * 2)
    ∧ (Q.all fun q => is_qr_mod ((3 % q + (2 * 1 - 1) * (2 * 1 - 1) % q) % q) q) = true :=
  ⟨by decide,
   (c6_no_false_negatives 3 10 1 2 (by decide) (by decide) (by decide) (by decide)
     (by decide)).1⟩

/-- C7: the per-modulus filter decision is a pure function of the true
candidate value modulo q. The kernel's double reduction
(T % q + d2 % q) % q equals (T + d2) mod q — the true 64-bit candidate
reduced modulo q when T + d2 does not overflow — `is_qr_mod` depends only
on its argument modulo q, and hence the kernel's per-modulus verdict
equals `is_qr_mod` of the true candidate residue. -/
theorem c7_modular_purity (T d2 q v : Nat) (_hT : T < U64) (_hd : d2 < U64)
    (_hov : T + d2 < U64) (_hq : q ∈ Q) :
    (T % q + d2 % q) % q = (T + d2) % q
    ∧ is_qr_mod v q = is_qr_mod (v % q) q
    ∧ is_qr_mod ((T % q + d2 % q) % q) q = is_qr_mod ((T + d2) % q) q := by
  have h1 : (T % q + d2 % q) % q = (T + d2) % q := (Nat.add_mod T d2 q).symm
  have h2 : ∀ w : Nat, is_qr_mod w q = is_qr_mod (w % q) q := by
    intro w
    unfold is_qr_mod
    rw [Nat.mod_mod_of_dvd w (dvd_refl q)]
  exact ⟨h1, h2 v, by rw [h1]⟩

/-- Witness for C7 at T = 3, d2 = 1, q = 5, v = 9. -/
theorem c7_witness :
    (3 < U64 ∧ 1 < U64 ∧ 3 + 1 < U64 ∧ 5 ∈ Q)
    ∧ (3 % 5 + 1 % 5) % 5 = (3 + 1) % 5 :=
  ⟨⟨by decide, by decide, by decide, by decide⟩,
   (c7_modular_purity 3 1 5 9 (by decide) (by decide) (by decide) (by decide)).1⟩

end EtaScanner
